import Mathlib

/-!
Verification of the tmi.js protocol engine against its specification.

Strings are modelled as `List Char` (JavaScript strings restricted to the
code points the spec's claims range over); maps keyed by strings are
modelled as association lists; JavaScript `Set` objects are modelled as
insertion-ordered duplicate-free lists; numbers appearing in the reconnect
arithmetic are modelled as rationals.
-/

namespace Tmi

/-! ### Tag codec — `src/src/lib/utils.ts` lines 1–87

The source tables are

  `const ircEscapedChars = { s: ' ', n: '', ':': ';', r: '' };`
  `const ircUnescapedChars = { ' ': 's', '\n': 'n', ';': ':', '\r': 'r' };`

(note: the decode table maps `n` and `r` to the *empty string*, and has no
entry for a backslash), with

  `const unescapeIRCRegex = /\\([sn:r\\])/g;`
  `const escapeIRCRegex = /([ \n;\r\\])/g;`
-/

/-- Decode table `ircEscapedChars` (escape letter → replacement text). -/
def ircEscapedChars : List (Char × List Char) :=
  [('s', [' ']), ('n', []), (':', [';']), ('r', [])]

/-- Encode table `ircUnescapedChars` (literal character → escape letter). -/
def ircUnescapedChars : List (Char × Char) :=
  [(' ', 's'), ('\n', 'n'), (';', ':'), ('\r', 'r')]

/-- The character class of `unescapeIRCRegex`: `[sn:r\\]`. -/
def unescapeClass : List Char := ['s', 'n', ':', 'r', '\\']

/-- The replacement callback of `unescapeIRC`:
`p in ircEscapedChars ? ircEscapedChars[p] : p`. -/
def unescapeRepl (c : Char) : List Char :=
  match ircEscapedChars.lookup c with
  | some r => r
  | none => [c]

/-- The global-regex replacement `msg.replace(unescapeIRCRegex, …)`:
a left-to-right scan; on a backslash followed by a class character the pair
is consumed and mapped through `unescapeRepl`, otherwise the character is
kept and the scan resumes at the next position. -/
def unescapeScan : List Char → List Char
  | [] => []
  | ['\\'] => ['\\']
  | '\\' :: c :: rest =>
    if c ∈ unescapeClass then unescapeRepl c ++ unescapeScan rest
    else '\\' :: unescapeScan (c :: rest)
  | c :: rest => c :: unescapeScan rest

/-- `unescapeIRC` (utils.ts lines 69–77).  The source returns the input
unchanged when it is empty or contains no backslash; otherwise it performs
the regex replacement. -/
def unescapeIRC (l : List Char) : List Char :=
  if l = [] ∨ ¬ l.contains '\\' then l else unescapeScan l

/-- The character class of `escapeIRCRegex`: `[ \n;\r\\]`. -/
def escapeClass : List Char := [' ', '\n', ';', '\r', '\\']

/-- The replacement callback of `escapeIRC`:
`p in ircUnescapedChars ? `\\${ircUnescapedChars[p]}` : p`.  The encode
table has no entry for a backslash, so a matched backslash is emitted
unchanged. -/
def escapeRepl (c : Char) : List Char :=
  match ircUnescapedChars.lookup c with
  | some e => ['\\', e]
  | none => [c]

/-- Per-character action of the `escapeIRC` regex replacement. -/
def escapeChar (c : Char) : List Char :=
  if c ∈ escapeClass then escapeRepl c else [c]

/-- `escapeIRC` (utils.ts lines 79–87). -/
def escapeIRC (l : List Char) : List Char :=
  l.flatMap escapeChar

/-- The meta-alphabet of the spec: printable ASCII together with
space, LF, semicolon, CR, and backslash (space, semicolon and backslash
are already printable ASCII). -/
def inMetaAlphabet (c : Char) : Prop :=
  (0x20 ≤ c.toNat ∧ c.toNat ≤ 0x7e) ∨ c = '\n' ∨ c = '\r'

instance : DecidablePred inMetaAlphabet := fun _ => by
  unfold inMetaAlphabet; infer_instance

/-! ### Outgoing message splitting — `ClientBase._sendMessage`,
`src/src/lib/utils.ts` lines 1507–1526

```
if (message.length > 500) {
  const maxLength = 500;
  const msg = message;
  let lastSpace = msg.slice(0, maxLength).lastIndexOf(' ');
  if (lastSpace === -1) { lastSpace = maxLength; }
  message = msg.slice(0, lastSpace);
  setTimeout(() => this._sendMessage({ …, message: msg.slice(lastSpace), … }), 350);
}
```
-/

/-- JavaScript `lastIndexOf(' ')`: `none` models `-1`. -/
def lastIndexOfSpace : List Char → Option Nat
  | [] => none
  | c :: rest =>
    match lastIndexOfSpace rest with
    | some i => some (i + 1)
    | none => if c = ' ' then some 0 else none

/-- The delay, in milliseconds, of the re-enqueue of the remainder of an
over-long message (`setTimeout(…, 350)`). -/
def resendDelayMs : Nat := 350

/-- The split index `lastSpace` computed by `_sendMessage` for an
over-long message: the last space in the first 500 characters, or 500 when
that window has no space. -/
def splitPoint (m : List Char) : Nat :=
  match lastIndexOfSpace (m.take 500) with
  | none => 500
  | some i => i

/-- One step of `_sendMessage`'s long-line splitting: the payload actually
sent now, and the remainder scheduled for re-enqueue after `resendDelayMs`
(or `none` when the message fits in 500 characters and nothing is
scheduled). -/
def splitStep (m : List Char) : List Char × Option (List Char) :=
  if m.length ≤ 500 then (m, none)
  else (m.take (splitPoint m), some (m.drop (splitPoint m)))

/-- The sequence of payloads produced by the recursive splitting, computed
with explicit fuel: `none` when the recursion does not finish within the
given fuel. -/
def framesFuel : Nat → List Char → Option (List (List Char))
  | 0, _ => none
  | n + 1, m =>
    match splitStep m with
    | (f, none) => some [f]
    | (f, some r) => (framesFuel n r).map (f :: ·)

/-- The recursive splitting with enough fuel for any terminating run:
every productive step removes at least one character, so `m.length + 1`
steps suffice whenever the recursion terminates at all. -/
def frames (m : List Char) : Option (List (List Char)) :=
  framesFuel (m.length + 1) m

/-- A message on which the recursive splitting never terminates: a space
followed by 600 non-spaces. -/
def loopSplitMsg : List Char := ' ' :: List.replicate 600 'B'

/-! ### Event bus `emits` — `EventEmitter.emits`

```
emits(types: string[], values: any[][]): void {
  for (let i = 0; i < types.length; i++) {
    const val = i < values.length ? values[i] : values[values.length - 1];
    this.emit(types[i], ...val);
  }
}
```
-/

/-- The body of the `emits` loop from index `i` on: the list of
(topic, argument-array) emissions it performs.  `none` models the
JavaScript `undefined` obtained by `values[values.length - 1]` on an
empty `values` array. -/
def emitsFrom {α : Type} (values : List α) : Nat → List String → List (String × Option α)
  | _, [] => []
  | i, t :: ts =>
    (t, if i < values.length then values.get? i else values.getLast?) ::
      emitsFrom values (i + 1) ts

/-- `EventEmitter.emits`: the emissions performed by one call. -/
def emitsDelivered {α : Type} (types : List String) (values : List α) :
    List (String × Option α) :=
  emitsFrom values 0 types

/-! ### Moderator roster update on `MODE -o` —
`ClientBase.handleMessage`, `src/src/lib/utils.ts` lines 1096–1104

```
} else if (msg === '-o') {
  if (!this.moderators[channel]) { this.moderators[channel] = []; }
  this.moderators[channel].filter(value => value !== message.params[2]);
  this.emit('unmod', channel, message.params[2]);
}
```
-/

/-- JavaScript object property assignment on a string-keyed record
modelled as an association list. -/
def recSet {β : Type} : List (String × β) → String → β → List (String × β)
  | [], k, v => [(k, v)]
  | (k', v') :: rest, k, v =>
    if k' = k then (k, v) :: rest else (k', v') :: recSet rest k v

/-- The `-o` branch of the `MODE` handler.  The roster is created when
absent; the `filter` on source line 1101 computes a new array that is
immediately discarded, so no username is ever removed. -/
def handleModeRemoveMod (mods : List (String × List String))
    (channel username : String) : List (String × List String) :=
  let mods' :=
    match mods.lookup channel with
    | none => recSet mods channel []
    | some _ => mods
  let _discarded :=
    ((mods'.lookup channel).getD []).filter (fun v => v ≠ username)
  mods'

/-! ### Reconnect timer — `ClientBase.connect` (utils.ts lines 1278–1281)
and the numeric-`376` handler (utils.ts lines 320–325)

```
this.reconnectTimer = this.reconnectTimer * this.reconnectDecay;
if (this.reconnectTimer >= this.maxReconnectInterval) {
  this.reconnectTimer = this.maxReconnectInterval;
}
```
and on `376`: `this.reconnections = 0; this.reconnectTimer = this.reconnectInterval;`.
JavaScript numbers are modelled as rationals.
-/

structure ReconnectState where
  reconnectTimer : ℚ
  reconnectInterval : ℚ
  maxReconnectInterval : ℚ
  reconnectDecay : ℚ

/-- The timer update at the start of `connect()`. -/
def connectTimerStep (s : ReconnectState) : ReconnectState :=
  let t := s.reconnectTimer * s.reconnectDecay
  { s with reconnectTimer := if s.maxReconnectInterval ≤ t then s.maxReconnectInterval else t }

/-- The timer reset performed by the numeric-`376` handler. -/
def handle376TimerReset (s : ReconnectState) : ReconnectState :=
  { s with reconnectTimer := s.reconnectInterval }

/-- `unescapeIRC` specialized to `String`. -/
def unescapeIRCStr (s : String) : String :=
  String.mk (unescapeIRC s.data)

/-! ### Scalar tag normalization — `ClientBase.handleMessage`,
`src/src/lib/utils.ts` lines 256–275

```
for (const key in tags) {
  if (key === 'emote-sets' || key === 'ban-duration' || key === 'bits') { continue; }
  let value = tags[key];
  if (typeof value === 'boolean') { value = null; }
  else if (value === '1') { value = true; }
  else if (value === '0') { value = false; }
  else if (typeof value === 'string') { value = utils.unescapeIRC(value); }
  tags[key] = value;
}
```
-/

/-- A tag value at the point of the normalization loop: a string, a bare
boolean, `null`, or a composite object produced by
`parser.badges` / `parser.badgeInfo` / `parser.emotes` (whose `typeof` is
`'object'`, so the loop leaves it alone). -/
inductive TagValue where
  | vStr : String → TagValue
  | vBool : Bool → TagValue
  | vNull : TagValue
  | vComposite : List (String × Option String) → TagValue
  deriving DecidableEq

/-- The per-value body of the normalization loop. -/
def transformTagValue (v : TagValue) : TagValue :=
  match v with
  | .vBool _ => .vNull
  | .vStr s =>
    if s = "1" then .vBool true
    else if s = "0" then .vBool false
    else .vStr (unescapeIRCStr s)
  | other => other

/-- The tag names skipped by the loop. -/
def exemptTags : List String := ["emote-sets", "ban-duration", "bits"]

/-- The whole normalization loop over a tag map (association list). -/
def transformTags (tags : List (String × TagValue)) : List (String × TagValue) :=
  tags.map (fun kv => if kv.1 ∈ exemptTags then kv else (kv.1, transformTagValue kv.2))

/-! ### The NOTICE "permission" class — `ClientBase.handleMessage`,
`src/src/lib/utils.ts` lines 716–753.  On a NOTICE from `tmi.twitch.tv`
whose `msg-id` is one of the six permission-class values, the handler
performs a single `emits` call over the `notice` topic plus the 27
`_promise*` command topics, with value arrays
`[[channel, msgid, msg], [msgid, channel]]`: the second array is fed to
every topic from index 1 on.  Emission arguments are modelled as lists of
`Option String` (`none` = `null`). -/

/-- The six permission-class `msg-id` values. -/
def permissionMsgIds : List String :=
  ["no_permission", "msg_banned", "msg_room_not_found",
   "msg_channel_suspended", "tos_ban", "invalid_user"]

/-- The topic list of the permission-class `emits` call, in source
order. -/
def permissionNoticeTopics : List String :=
  ["notice", "_promiseBan", "_promiseClear", "_promiseUnban",
   "_promiseTimeout", "_promiseDeletemessage", "_promiseMods",
   "_promiseMod", "_promiseUnmod", "_promiseVips", "_promiseVip",
   "_promiseUnvip", "_promiseCommercial", "_promiseHost",
   "_promiseUnhost", "_promiseJoin", "_promisePart", "_promiseR9kbeta",
   "_promiseR9kbetaoff", "_promiseSlow", "_promiseSlowoff",
   "_promiseFollowers", "_promiseFollowersoff", "_promiseSubscribers",
   "_promiseSubscribersoff", "_promiseEmoteonly", "_promiseEmoteonlyoff",
   "_promiseWhisper"]

/-- Whether a topic name is an internal `_promise*` command topic. -/
def isPromiseTopic (t : String) : Bool :=
  "_promise".data.isPrefixOf t.data

/-- The emissions of the permission-class NOTICE branch:
`this.emits([ 'notice', …27 _promise topics… ], [ noticeArr, [ msgid, channel ] ])`. -/
def noticePermissionEmits (channel msgid : String) (msg : Option String) :
    List (String × Option (List (Option String))) :=
  emitsDelivered permissionNoticeTopics
    [[some channel, some msgid, msg], [some msgid, some channel]]

/-! ### Multi-channel JOIN — `Client.join` (`src/unnamed/part_002`
lines 124–182), `utils.channel`, `parser.formTags`, and
`ClientBase._sendCommand`.

`join` normalizes the channels, sends the single raw frame
`JOIN #a,#b,#c` through `_sendCommand` (no channel, no tags), registers a
persistent `_promiseJoin` listener that tracks confirmations in a `Set`,
resolves once the set of joined channels reaches the size of the expected
set, and rejects on the first failure for an expected channel.  The
`_promiseJoin` events (fired with `(null, channel)` by the `ROOMSTATE`
handler and with an error string on failure) are modelled as a list of
`Option String × String` pairs processed in order. -/

/-- `utils.channel`: lowercase, then prepend `#` unless already present.
(`String.toLowerCase` is modelled on the ASCII range the claims use.) -/
def channelName (s : String) : String :=
  let l := s.data.map Char.toLower
  match l with
  | '#' :: _ => String.mk l
  | _ => String.mk ('#' :: l)

/-- `escapeIRC` specialized to `String`. -/
def escapeIRCStr (s : String) : String :=
  String.mk (escapeIRC s.data)

/-- `parser.formTags`: `null` for an empty tag record, otherwise
`@k1=v1;k2=v2` with escaped keys and values. -/
def formTags (tags : List (String × String)) : Option String :=
  match tags with
  | [] => none
  | _ => some ("@" ++ String.intercalate ";"
      (tags.map (fun kv => escapeIRCStr kv.1 ++ "=" ++ escapeIRCStr kv.2)))

/-- The frames sent by one `_sendCommand` call: one `ws.send`, either
`PRIVMSG <chan> :<command>` when a channel is given or the raw command
otherwise, with the formed tag block (space-terminated) in front when
tags are present. -/
def sendCommandFrames (channel : Option String) (tags : List (String × String))
    (command : String) : List String :=
  let tagsPart :=
    match formTags tags with
    | some t => t ++ " "
    | none => ""
  match channel with
  | some ch => [tagsPart ++ "PRIVMSG " ++ channelName ch ++ " :" ++ command]
  | none => [tagsPart ++ command]

/-- `join`'s outgoing command:
`JOIN ${channels.map(utils.channel).join(',')}`. -/
def joinCommand (chs : List String) : String :=
  "JOIN " ++ String.intercalate "," (chs.map channelName)

/-- The frames sent by one `join` call (`_sendCommand` with no channel
and no tags). -/
def joinFrames (chs : List String) : List String :=
  sendCommandFrames none [] (joinCommand chs)

/-- JavaScript `Set.add` on an insertion-ordered duplicate-free list. -/
def jsSetAdd (l : List String) (x : String) : List String :=
  if x ∈ l then l else l ++ [x]

/-- JavaScript `new Set(list)`: insertion-ordered deduplication. -/
def jsSetOfList (l : List String) : List String :=
  l.foldl jsSetAdd []

/-- The state of a pending `join` call's future. -/
inductive JoinOutcome where
  | pending (joined : List String)
  | resolved (result : List String)
  | rejected (err : String)
  deriving DecidableEq

/-- One `_promiseJoin` event through `join`'s listener.  Once the future
is fulfilled the listener has been removed, so later events change
nothing. -/
def joinStep (expected : List String) : JoinOutcome → Option String × String → JoinOutcome
  | .pending joined, (err, jc) =>
    let njc := channelName jc
    if njc ∈ expected then
      match err with
      | some e => .rejected e
      | none =>
        let j' := jsSetAdd joined njc
        if j'.length = expected.length then .resolved j' else .pending j'
    else .pending joined
  | st, _ => st

/-- `join`'s listener run over a sequence of `_promiseJoin` events. -/
def runJoin (chs : List String) (events : List (Option String × String)) : JoinOutcome :=
  events.foldl (joinStep (jsSetOfList (chs.map channelName))) (.pending [])

/-- The final shaping of the resolved value:
`Array.isArray(channel) ? result : [result[0]]`. -/
def joinResultShape (isArray : Bool) (result : List String) : List String :=
  if isArray then result else result.take 1

/-- A confirmation (`err = null`) for channel `c` occurs in `events`. -/
def ConfIn (events : List (Option String × String)) (c : String) : Prop :=
  ∃ p ∈ events, p.1 = none ∧ channelName p.2 = c

/-- The invariant maintained by `join`'s listener: the joined set is
duplicate-free, contains only expected channels, each backed by a
confirmation; a resolved result additionally has the full expected
size. -/
def JoinInv (expected : List String) (conf : String → Prop) : JoinOutcome → Prop
  | .pending j => j.Nodup ∧ ∀ c ∈ j, c ∈ expected ∧ conf c
  | .resolved l => l.Nodup ∧ l.length = expected.length ∧ ∀ c ∈ l, c ∈ expected ∧ conf c
  | .rejected _ => True

/-! ### The message parser — `parser.msg`, `src/src/lib/parser.ts`
lines 147–265.

The parser makes a positional scan of one line: optional `@`-tag block up
to the first space, space skipping, optional `:`-prefix up to the next
space, the command up to the next space or the end, then the parameter
loop (a parameter starting with `:` consumes the remainder).  It returns
`null` when the `@` block has no terminating space, when the `:` prefix
has no terminating space, or when no command text remains. -/

/-- JavaScript `indexOf(' ', start)` (`none` models `-1`). -/
def indexOfSpaceFrom : List Char → Nat → Option Nat
  | [], _ => none
  | c :: rest, 0 =>
    if c = ' ' then some 0 else (indexOfSpaceFrom rest 0).map (· + 1)
  | _ :: rest, s + 1 => (indexOfSpaceFrom rest s).map (· + 1)

/-- JavaScript `slice(a, b)` (for the in-range uses the parser makes). -/
def listSlice (l : List Char) (a b : Nat) : List Char :=
  (l.take b).drop a

/-- Fuel-indexed body of the space-skipping loop. -/
def skipSpacesAux (data : List Char) : Nat → Nat → Nat
  | 0, pos => pos
  | fuel + 1, pos =>
    if data.get? pos = some ' ' then skipSpacesAux data fuel (pos + 1) else pos

/-- The parser's space-skipping loops:
`while (data.charCodeAt(position) === 32) { position++; }`.  The loop
advances at most to the end of the string, so `data.length + 1 - pos`
steps of fuel always suffice (see `skipSpaces_eq`). -/
def skipSpaces (data : List Char) (pos : Nat) : Nat :=
  skipSpacesAux data (data.length + 1 - pos) pos

/-- One raw tag: the key is everything before the first `=`; the value is
`tag.slice(tag.indexOf('=') + 1) || true` — the text after the first `=`
when one exists, the whole tag text otherwise, with the empty string
replaced by the bare boolean `true`. -/
def parseTag (tag : List Char) : String × TagValue :=
  let key := tag.takeWhile (fun c => c ≠ '=')
  let valChars :=
    if tag.contains '=' then (tag.dropWhile (fun c => c ≠ '=')).drop 1 else tag
  (String.mk key,
    if valChars = [] then .vBool true else .vStr (String.mk valChars))

/-- The tag block split on `;`, each tag assigned into the tag record. -/
def parseTags (s : List Char) : List (String × TagValue) :=
  (s.splitOn ';').foldl
    (fun acc tag =>
      let kv := parseTag tag
      recSet acc kv.1 kv.2) []

/-- A parsed IRC message (`prfx` models the source's `prefix` field). -/
structure IRCMessage where
  raw : List Char
  tags : List (String × TagValue)
  prfx : Option (List Char)
  command : Option (List Char)
  params : List (List Char)
  deriving DecidableEq

/-- The tag phase: on `@` at position 0, find the first space (`null`
when absent), parse `slice(1, nextspace)` and continue at
`nextspace + 1`; otherwise continue at 0 with no tags. -/
def tagsStep (data : List Char) : Option (List (String × TagValue) × Nat) :=
  if data.get? 0 = some '@' then
    match indexOfSpaceFrom data 0 with
    | none => none
    | some ns => some (parseTags (listSlice data 1 ns), ns + 1)
  else some ([], 0)

/-- The prefix phase at position `pos` (spaces already skipped): on `:`,
find the next space (`null` when absent), record
`slice(pos + 1, nextspace)` and continue after the space and any further
spaces; otherwise no prefix. -/
def prefixStep (data : List Char) (pos : Nat) :
    Option (Option (List Char) × Nat) :=
  if data.get? pos = some ':' then
    match indexOfSpaceFrom data pos with
    | none => none
    | some ns => some (some (listSlice data (pos + 1) ns), skipSpaces data (ns + 1))
  else some (none, pos)

/-- Fuel-indexed body of the parameter loop. -/
def paramsLoopAux (data : List Char) : Nat → Nat → List (List Char)
  | 0, _ => []
  | fuel + 1, pos =>
    if pos < data.length then
      if data.get? pos = some ':' then [data.drop (pos + 1)]
      else
        match indexOfSpaceFrom data pos with
        | some ns =>
          listSlice data pos ns :: paramsLoopAux data fuel (skipSpaces data (ns + 1))
        | none => [data.drop pos]
    else []

/-- The parameter loop: while text remains, a `:`-led parameter takes the
whole remainder; otherwise the text up to the next space (or the end) is
one parameter.  The position strictly increases on every iteration, so
`data.length + 1 - pos` steps of fuel always suffice (see
`paramsLoop_eq`). -/
def paramsLoop (data : List Char) (pos : Nat) : List (List Char) :=
  paramsLoopAux data (data.length + 1 - pos) pos

/-- The command phase and message assembly: with no further space, the
remainder (when non-empty) is the command and there are no parameters;
with a space at `ns`, the command is `slice(pos, ns)` and the parameter
loop runs after the space and any further spaces. -/
def commandStep (data : List Char) (pos : Nat) :
    Option (List Char × List (List Char)) :=
  match indexOfSpaceFrom data pos with
  | none =>
    if pos < data.length then some (data.drop pos, [])
    else none
  | some ns =>
    some (listSlice data pos ns, paramsLoop data (skipSpaces data (ns + 1)))

/-- `parser.msg`: the full parse of one line; `none` models the `null`
("no message") sentinel. -/
def msg (data : List Char) : Option IRCMessage :=
  match tagsStep data with
  | none => none
  | some (tags, p1) =>
    match prefixStep data (skipSpaces data p1) with
    | none => none
    | some (prfx, p3) =>
      match commandStep data p3 with
      | none => none
      | some (cmd, params) =>
        some { raw := data, tags := tags, prfx := prfx,
               command := some cmd, params := params }

/-! ### Theorems -/

theorem lastIndexOfSpace_isSpace {l : List Char} {i : Nat}
    (h : lastIndexOfSpace l = some i) : l.get? i = some ' ' := by
  induction l generalizing i with
  | nil => simp [lastIndexOfSpace] at h
  | cons c rest ih =>
    simp only [lastIndexOfSpace] at h
    cases hr : lastIndexOfSpace rest with
    | some j =>
      rw [hr] at h
      cases h
      simpa using ih hr
    | none =>
      rw [hr] at h
      by_cases hc : c = ' '
      · simp [hc] at h
        cases h
        simp [hc]
      · simp [hc] at h

theorem lastIndexOfSpace_none {l : List Char}
    (h : lastIndexOfSpace l = none) : ∀ j, l.get? j ≠ some ' ' := by
  induction l with
  | nil => simp
  | cons c rest ih =>
    simp only [lastIndexOfSpace] at h
    cases hr : lastIndexOfSpace rest with
    | some k => rw [hr] at h; cases h
    | none =>
      rw [hr] at h
      by_cases hc : c = ' '
      · simp [hc] at h
      · intro j
        match j with
        | 0 => simpa using hc
        | j + 1 => simpa using ih hr j

theorem lastIndexOfSpace_last {l : List Char} {i : Nat}
    (h : lastIndexOfSpace l = some i) :
    ∀ j, i < j → l.get? j ≠ some ' ' := by
  induction l generalizing i with
  | nil => simp [lastIndexOfSpace] at h
  | cons c rest ih =>
    simp only [lastIndexOfSpace] at h
    cases hr : lastIndexOfSpace rest with
    | some k =>
      rw [hr] at h
      cases h
      intro j hj
      match j, hj with
      | j + 1, hj =>
        simpa using ih hr j (by omega)
    | none =>
      rw [hr] at h
      by_cases hc : c = ' '
      · simp [hc] at h
        cases h
        intro j hj
        match j, hj with
        | j + 1, _ =>
          simpa using lastIndexOfSpace_none hr j
      · simp [hc] at h

theorem lastIndexOfSpace_lt_length {l : List Char} {i : Nat}
    (h : lastIndexOfSpace l = some i) : i < l.length := by
  have := lastIndexOfSpace_isSpace h
  have := List.get?_eq_some.mp this
  exact this.1

theorem splitPoint_le (m : List Char) : splitPoint m ≤ 500 := by
  unfold splitPoint
  cases h : lastIndexOfSpace (m.take 500) with
  | none => exact le_refl _
  | some i =>
    show i ≤ 500
    have := lastIndexOfSpace_lt_length h
    simp only [List.length_take] at this
    omega

theorem splitStep_fst_none {m f : List Char}
    (h : splitStep m = (f, none)) : f = m ∧ m.length ≤ 500 := by
  unfold splitStep at h
  by_cases hl : m.length ≤ 500
  · rw [if_pos hl] at h
    exact ⟨(Prod.mk.injEq _ _ _ _ ▸ h).1.symm, hl⟩
  · rw [if_neg hl] at h
    cases h

theorem splitStep_fst_some {m f r : List Char}
    (h : splitStep m = (f, some r)) :
    f = m.take (splitPoint m) ∧ r = m.drop (splitPoint m) ∧
    500 < m.length := by
  unfold splitStep at h
  by_cases hl : m.length ≤ 500
  · rw [if_pos hl] at h
    cases h
  · rw [if_neg hl] at h
    obtain ⟨h1, h2⟩ := Prod.mk.injEq _ _ _ _ ▸ h
    refine ⟨h1.symm, ?_, by omega⟩
    exact (Option.some.injEq _ _ ▸ h2).symm

theorem framesFuel_flatten {n : Nat} {m : List Char} {fs : List (List Char)}
    (h : framesFuel n m = some fs) : fs.flatten = m := by
  induction n generalizing m fs with
  | zero => simp [framesFuel] at h
  | succ n ih =>
    simp only [framesFuel] at h
    rcases hs : splitStep m with ⟨f, r⟩
    rw [hs] at h
    cases r with
    | none =>
      obtain ⟨hf, _⟩ := splitStep_fst_none hs
      cases h
      simp [hf]
    | some r =>
      obtain ⟨fs', hfs', rfl⟩ := Option.map_eq_some'.mp h
      obtain ⟨hf, hr, _⟩ := splitStep_fst_some hs
      rw [List.flatten_cons, ih hfs', hf, hr]
      exact List.take_append_drop _ _

theorem framesFuel_head {n : Nat} {m : List Char} {fs : List (List Char)}
    (h : framesFuel n m = some fs) : fs.head? = some (splitStep m).1 := by
  cases n with
  | zero => simp [framesFuel] at h
  | succ n =>
    simp only [framesFuel] at h
    rcases hs : splitStep m with ⟨f, r⟩
    rw [hs] at h
    cases r with
    | none => cases h; simp
    | some r =>
      obtain ⟨fs', _, rfl⟩ := Option.map_eq_some'.mp h
      simp

/-- C5 (amended): for every message longer than 500 characters,
`_sendMessage` sends as the first frame the prefix up to the split index
(`splitPoint`: the last space within the first 500 characters, or 500 when
that window has no space), schedules the rest — the exact character
suffix, including the split space — for re-enqueue after 350 ms, and
applies the same splitting recursively; *whenever the recursion
terminates*, the payloads of all resulting frames concatenate in order to
the original message and the first frame is at most 500 characters long.
(The terminating proviso is forced: a remainder longer than 500
characters whose 500-character window has its last space at index 0
splits into an empty frame and an unchanged remainder, so the recursion
never terminates — see the counterexample theorem.) -/
theorem sendMessage_split_spec (m : List Char) (h : 500 < m.length) :
    splitStep m = (m.take (splitPoint m), some (m.drop (splitPoint m))) ∧
    m.take (splitPoint m) ++ m.drop (splitPoint m) = m ∧
    (m.take (splitPoint m)).length ≤ 500 ∧
    (lastIndexOfSpace (m.take 500) = none → splitPoint m = 500) ∧
    (∀ i, lastIndexOfSpace (m.take 500) = some i →
      splitPoint m = i ∧ (m.take 500).get? i = some ' ' ∧
      ∀ j, i < j → (m.take 500).get? j ≠ some ' ') ∧
    resendDelayMs = 350 ∧
    (∀ n fs, framesFuel n m = some fs →
      fs.flatten = m ∧ fs.head? = some (m.take (splitPoint m))) := by
  refine ⟨?_, List.take_append_drop _ _, ?_, ?_, ?_, rfl, ?_⟩
  · unfold splitStep
    rw [if_neg (by omega)]
  · simp only [List.length_take]
    have := splitPoint_le m
    omega
  · intro hn
    unfold splitPoint
    rw [hn]
  · intro i hi
    refine ⟨?_, lastIndexOfSpace_isSpace hi, lastIndexOfSpace_last hi⟩
    unfold splitPoint
    rw [hi]
  · intro n fs hfs
    refine ⟨framesFuel_flatten hfs, ?_⟩
    have := framesFuel_head hfs
    rw [this]
    unfold splitStep
    rw [if_neg (by omega)]

/-- Witness for `sendMessage_split_spec` at the concrete 501-character
message of the spec's splitting test shape. -/
theorem sendMessage_split_spec_witness :
    500 < (List.replicate 501 'A' : List Char).length ∧
    ((List.replicate 501 'A' : List Char).take
      (splitPoint (List.replicate 501 'A'))).length ≤ 500 :=
  ⟨by rw [List.length_replicate]; omega,
   (sendMessage_split_spec (List.replicate 501 'A')
     (by rw [List.length_replicate]; omega)).2.2.1⟩

theorem lastIndexOfSpace_replicate {c : Char} (hc : c ≠ ' ') :
    ∀ k, lastIndexOfSpace (List.replicate k c) = none := by
  intro k
  induction k with
  | zero => simp [lastIndexOfSpace]
  | succ k ih => simp [List.replicate_succ, lastIndexOfSpace, ih, hc]

theorem lastIndexOfSpace_cons_of_none {c : Char} {rest : List Char}
    (h : lastIndexOfSpace rest = none) :
    lastIndexOfSpace (c :: rest) = if c = ' ' then some 0 else none := by
  simp only [lastIndexOfSpace, h]

theorem splitStep_loopSplitMsg :
    splitStep loopSplitMsg = ([], some loopSplitMsg) := by
  have hlen : loopSplitMsg.length = 601 := by
    show (' ' :: List.replicate 600 'B').length = 601
    rw [List.length_cons, List.length_replicate]
  have htake : loopSplitMsg.take 500 = ' ' :: List.replicate 499 'B' := by
    show (' ' :: List.replicate 600 'B').take (499 + 1) = _
    rw [List.take_succ_cons, List.take_replicate]
    norm_num
  have hlast : lastIndexOfSpace (loopSplitMsg.take 500) = some 0 := by
    rw [htake,
      lastIndexOfSpace_cons_of_none
        (lastIndexOfSpace_replicate (by decide : 'B' ≠ ' ') 499)]
    rw [if_pos rfl]
  have hpt : splitPoint loopSplitMsg = 0 := by
    unfold splitPoint
    rw [hlast]
  unfold splitStep
  rw [if_neg (by omega), hpt]
  rw [List.take_zero, List.drop_zero]

theorem framesFuel_loopSplitMsg : ∀ n, framesFuel n loopSplitMsg = none := by
  intro n
  induction n with
  | zero => rfl
  | succ n ih =>
    simp only [framesFuel, splitStep_loopSplitMsg, ih, Option.map_none']

/-- C5 counterexample: the claim as stated fails on the 601-character
message `" " ++ "B"*600`: it is longer than 500 characters, yet the
recursive splitting never produces a frame list whose concatenation is
the original — every step sends an empty frame and re-enqueues the
unchanged remainder, so `frames` (the recursion with any sufficient fuel)
yields no result at all. -/
theorem sendMessage_split_diverges :
    500 < loopSplitMsg.length ∧ frames loopSplitMsg = none :=
  ⟨by show 500 < (' ' :: List.replicate 600 'B').length
      rw [List.length_cons, List.length_replicate]
      omega,
   framesFuel_loopSplitMsg _⟩

theorem emitsFrom_get? {α : Type} (values : List α) :
    ∀ (ts : List String) (i j : Nat),
      (emitsFrom values i ts).get? j =
        (ts.get? j).map (fun t =>
          (t, if i + j < values.length then values.get? (i + j)
              else values.getLast?)) := by
  intro ts
  induction ts with
  | nil => intro i j; simp [emitsFrom]
  | cons t ts ih =>
    intro i j
    cases j with
    | zero => simp [emitsFrom]
    | succ j =>
      have heq : i + (j + 1) = (i + 1) + j := by omega
      simp only [emitsFrom, List.get?]
      rw [heq]
      exact ih (i + 1) j

theorem emitsFrom_single {α : Type} (v : α) :
    ∀ (ts : List String) (i : Nat),
      emitsFrom [v] i ts = ts.map (fun t => (t, some v)) := by
  intro ts
  induction ts with
  | nil => intro i; simp [emitsFrom]
  | cons t ts ih =>
    intro i
    simp only [emitsFrom, List.map_cons, ih (i + 1)]
    cases i with
    | zero => simp
    | succ i => simp

/-- C10: when `values` is shorter than `types` (but non-empty, so that
`values[values.length - 1]` denotes an actual entry), every topic
`types[i]` with `i ≥ values.length` is emitted with the last entry of
`values`; in particular a one-entry `values` array delivers its single
argument list to every listed topic. -/
theorem emits_fills_with_last {α : Type} (types : List String) (values : List α)
    (hne : values ≠ []) (hlt : values.length < types.length) :
    (∃ last, values.getLast? = some last) ∧
    (∀ i, values.length ≤ i →
      (emitsDelivered types values).get? i =
        (types.get? i).map (fun t => (t, values.getLast?))) ∧
    (∀ v : α, emitsDelivered types [v] = types.map (fun t => (t, some v))) := by
  refine ⟨⟨values.getLast hne, List.getLast?_eq_getLast _ hne⟩, ?_, ?_⟩
  · intro i hi
    rw [emitsDelivered, emitsFrom_get? values types 0 i]
    have : ¬ (0 + i < values.length) := by omega
    rw [if_neg this]
  · intro v
    rw [emitsDelivered, emitsFrom_single]

/-- Witness for `emits_fills_with_last` on two topics and one value. -/
theorem emits_fills_with_last_witness :
    ([[3]] : List (List Nat)) ≠ [] ∧ ([[3]] : List (List Nat)).length < (["a", "b"] : List String).length ∧
    emitsDelivered ["a", "b"] [([3] : List Nat)] = [("a", some [3]), ("b", some [3])] :=
  ⟨by decide, by decide,
    by rw [(emits_fills_with_last ["a", "b"] [[3]] (by decide) (by decide)).2.2 [3]]
       rfl⟩

/-- C9: for a channel whose moderator roster already exists, handling a
`MODE … -o username` message from `jtv` leaves the whole `moderators`
record — in particular the channel's roster — unchanged. -/
theorem mode_deop_roster_unchanged (mods : List (String × List String))
    (channel username : String) (roster : List String)
    (h : mods.lookup channel = some roster) :
    handleModeRemoveMod mods channel username = mods ∧
    (handleModeRemoveMod mods channel username).lookup channel = some roster := by
  unfold handleModeRemoveMod
  rw [h]
  exact ⟨rfl, h⟩

/-- Witness for `mode_deop_roster_unchanged` on a one-channel record. -/
theorem mode_deop_roster_unchanged_witness :
    ([("#c", ["m"])] : List (String × List String)).lookup "#c" = some ["m"] ∧
    handleModeRemoveMod [("#c", ["m"])] "#c" "m" = [("#c", ["m"])] :=
  ⟨by decide,
    (mode_deop_roster_unchanged [("#c", ["m"])] "#c" "m" ["m"] (by decide)).1⟩

theorem connectTimerStep_bounds (s : ReconnectState)
    (hd : s.reconnectDecay = 3 / 2) (h0 : 0 ≤ s.reconnectTimer)
    (hm : s.reconnectTimer ≤ s.maxReconnectInterval) :
    s.reconnectTimer ≤ (connectTimerStep s).reconnectTimer ∧
    (connectTimerStep s).reconnectTimer ≤ s.maxReconnectInterval ∧
    0 ≤ (connectTimerStep s).reconnectTimer := by
  unfold connectTimerStep
  simp only
  split
  case isTrue h => exact ⟨hm, le_refl _, le_trans h0 hm⟩
  case isFalse h =>
    have ht : s.reconnectTimer ≤ s.reconnectTimer * s.reconnectDecay := by
      rw [hd]; nlinarith
    exact ⟨ht, le_of_not_le h, le_trans h0 ht⟩

theorem connectTimerStep_fields (s : ReconnectState) :
    (connectTimerStep s).reconnectDecay = s.reconnectDecay ∧
    (connectTimerStep s).maxReconnectInterval = s.maxReconnectInterval ∧
    (connectTimerStep s).reconnectInterval = s.reconnectInterval :=
  ⟨rfl, rfl, rfl⟩

theorem connectTimerStep_iterate_invariant (s : ReconnectState)
    (hd : s.reconnectDecay = 3 / 2) (h0 : 0 ≤ s.reconnectTimer)
    (hm : s.reconnectTimer ≤ s.maxReconnectInterval) :
    ∀ n : Nat,
      (connectTimerStep^[n] s).reconnectDecay = 3 / 2 ∧
      (connectTimerStep^[n] s).maxReconnectInterval = s.maxReconnectInterval ∧
      0 ≤ (connectTimerStep^[n] s).reconnectTimer ∧
      (connectTimerStep^[n] s).reconnectTimer ≤ s.maxReconnectInterval := by
  intro n
  induction n with
  | zero => exact ⟨hd, rfl, h0, hm⟩
  | succ n ih =>
    obtain ⟨ihd, ihm, ih0, ihb⟩ := ih
    rw [Function.iterate_succ_apply']
    have hb := connectTimerStep_bounds (connectTimerStep^[n] s) ihd ih0 (ihm ▸ ihb)
    refine ⟨(connectTimerStep_fields _).1.trans ihd,
      (connectTimerStep_fields _).2.1.trans ihm, hb.2.2, ?_⟩
    rw [← ihm]
    exact hb.2.1

/-- C8: the reconnect delay is multiplied by `reconnectDecay` at the start
of each connect attempt and capped at `maxReconnectInterval`; the `376`
handler resets it to `reconnectInterval`; and under the default decay
`1.5`, starting from any non-negative delay not exceeding
`maxReconnectInterval`, the delay over successive connect attempts is
monotone non-decreasing and never exceeds `maxReconnectInterval`. -/
theorem reconnect_timer_spec (s : ReconnectState)
    (hd : s.reconnectDecay = 3 / 2) (h0 : 0 ≤ s.reconnectTimer)
    (hm : s.reconnectTimer ≤ s.maxReconnectInterval) :
    ((connectTimerStep s).reconnectTimer =
      if s.maxReconnectInterval ≤ s.reconnectTimer * s.reconnectDecay
      then s.maxReconnectInterval else s.reconnectTimer * s.reconnectDecay) ∧
    ((handle376TimerReset s).reconnectTimer = s.reconnectInterval) ∧
    (∀ n : Nat,
      (connectTimerStep^[n] s).reconnectTimer ≤
        (connectTimerStep^[n + 1] s).reconnectTimer ∧
      (connectTimerStep^[n] s).reconnectTimer ≤ s.maxReconnectInterval) := by
  refine ⟨rfl, rfl, ?_⟩
  intro n
  obtain ⟨ihd, ihm, ih0, ihb⟩ := connectTimerStep_iterate_invariant s hd h0 hm n
  have hb := connectTimerStep_bounds (connectTimerStep^[n] s) ihd ih0 (ihm ▸ ihb)
  rw [Function.iterate_succ_apply']
  exact ⟨hb.1, ihb⟩

/-- Witness for `reconnect_timer_spec` at the default configuration
(`reconnectInterval` 1000 ms, `maxReconnectInterval` 30000 ms,
`reconnectDecay` 1.5). -/
theorem reconnect_timer_spec_witness :
    (connectTimerStep ⟨1000, 1000, 30000, 3 / 2⟩).reconnectTimer =
      if (30000 : ℚ) ≤ 1000 * (3 / 2) then (30000 : ℚ) else 1000 * (3 / 2) :=
  (reconnect_timer_spec ⟨1000, 1000, 30000, 3 / 2⟩ rfl (by norm_num) (by norm_num)).1

/-- C7: after composite-tag parsing, each tag entry is normalized:
`'1'` → `true`, `'0'` → `false`, a bare boolean → `null`, any other
string → its IRC-unescaped form; the tags `emote-sets`, `ban-duration`
and `bits` are exempt and kept unchanged. -/
theorem tag_normalization_spec (tags : List (String × TagValue))
    (k : String) (v : TagValue) (hmem : (k, v) ∈ tags) :
    (k ∈ exemptTags → (k, v) ∈ transformTags tags) ∧
    (k ∉ exemptTags →
      (k, transformTagValue v) ∈ transformTags tags ∧
      (∀ b, v = .vBool b → transformTagValue v = .vNull) ∧
      (v = .vStr "1" → transformTagValue v = .vBool true) ∧
      (v = .vStr "0" → transformTagValue v = .vBool false) ∧
      (∀ s, v = .vStr s → s ≠ "1" → s ≠ "0" →
        transformTagValue v = .vStr (unescapeIRCStr s))) := by
  constructor
  · intro hex
    have := List.mem_map_of_mem
      (fun kv : String × TagValue =>
        if kv.1 ∈ exemptTags then kv else (kv.1, transformTagValue kv.2)) hmem
    dsimp only at this
    rw [if_pos hex] at this
    exact this
  · intro hex
    refine ⟨?_, ?_, ?_, ?_, ?_⟩
    · have := List.mem_map_of_mem
        (fun kv : String × TagValue =>
          if kv.1 ∈ exemptTags then kv else (kv.1, transformTagValue kv.2)) hmem
      dsimp only at this
      rw [if_neg hex] at this
      exact this
    · rintro b rfl; rfl
    · rintro rfl; rfl
    · rintro rfl; rfl
    · rintro s rfl h1 h0
      simp [transformTagValue, h1, h0]

/-- Witness for `tag_normalization_spec` on the tag map
`{color: 'a'}`. -/
theorem tag_normalization_spec_witness :
    ("color", TagValue.vStr "a") ∈ ([("color", TagValue.vStr "a")] : List (String × TagValue)) ∧
    ("color", transformTagValue (TagValue.vStr "a")) ∈
      transformTags [("color", TagValue.vStr "a")] :=
  ⟨by decide,
    ((tag_normalization_spec [("color", TagValue.vStr "a")] "color"
      (TagValue.vStr "a") (by decide)).2 (by decide)).1⟩

/-- C3: for each of the six permission-class `msg-id` values, the NOTICE
handler emits, in one `emits` call, the public `notice` event with
`[channel, msgid, msg]` and the failure `[msgid, channel]` on all 27
`_promise*` command topics simultaneously — rejecting every outstanding
command listening on any of them. -/
theorem notice_permission_rejects_all (channel msgid : String)
    (msg : Option String) (hid : msgid ∈ permissionMsgIds) :
    noticePermissionEmits channel msgid msg =
      ("notice", some [some channel, some msgid, msg]) ::
        (permissionNoticeTopics.filter isPromiseTopic).map
          (fun t => (t, some [some msgid, some channel])) ∧
    ∀ t ∈ permissionNoticeTopics.filter isPromiseTopic,
      (t, some [some msgid, some channel]) ∈
        noticePermissionEmits channel msgid msg := by
  have key : noticePermissionEmits channel msgid msg =
      ("notice", some [some channel, some msgid, msg]) ::
        (permissionNoticeTopics.filter isPromiseTopic).map
          (fun t => (t, some [some msgid, some channel])) := rfl
  refine ⟨key, ?_⟩
  intro t ht
  rw [key]
  exact List.mem_cons_of_mem _ (List.mem_map_of_mem _ ht)

/-- Witness for `notice_permission_rejects_all` at `msg-id`
`no_permission`. -/
theorem notice_permission_rejects_all_witness :
    ("no_permission" ∈ permissionMsgIds) ∧
    ("_promiseJoin", some [some "no_permission", some "#c"]) ∈
      noticePermissionEmits "#c" "no_permission" none :=
  ⟨by decide,
    (notice_permission_rejects_all "#c" "no_permission" none
      (by decide)).2 "_promiseJoin" (by decide)⟩

theorem mem_jsSetAdd {l : List String} {x c : String} :
    c ∈ jsSetAdd l x ↔ c ∈ l ∨ c = x := by
  unfold jsSetAdd
  split
  case isTrue h =>
    constructor
    · exact fun hc => Or.inl hc
    · rintro (hc | rfl)
      · exact hc
      · exact h
  case isFalse h => simp

theorem nodup_append_singleton {l : List String} {x : String}
    (h : l.Nodup) (hx : x ∉ l) : (l ++ [x]).Nodup := by
  refine List.Nodup.append h (List.nodup_singleton x) ?_
  intro a ha hax
  rw [List.mem_singleton] at hax
  exact hx (hax ▸ ha)

theorem jsSetAdd_nodup {l : List String} {x : String} (h : l.Nodup) :
    (jsSetAdd l x).Nodup := by
  unfold jsSetAdd
  split
  case isTrue _ => exact h
  case isFalse hx => exact nodup_append_singleton h hx

theorem jsSetAdd_length_of_not_mem {l : List String} {x : String} (h : x ∉ l) :
    (jsSetAdd l x).length = l.length + 1 := by
  unfold jsSetAdd
  rw [if_neg h]
  simp

theorem jsSetOfList_eq_self {l : List String} (h : l.Nodup) :
    jsSetOfList l = l := by
  have H : ∀ (l' acc : List String), acc.Nodup → l'.Nodup →
      (∀ c ∈ acc, c ∉ l') → l'.foldl jsSetAdd acc = acc ++ l' := by
    intro l'
    induction l' with
    | nil => intro acc _ _ _; simp
    | cons x xs ih =>
      intro acc hacc hl hdisj
      have hx : x ∉ acc := fun hmem => hdisj x hmem (List.mem_cons_self x xs)
      have hstep : jsSetAdd acc x = acc ++ [x] := by
        unfold jsSetAdd; rw [if_neg hx]
      rw [List.foldl_cons, hstep, ih (acc ++ [x])
        (nodup_append_singleton hacc hx)
        (List.Nodup.of_cons hl)
        ?_]
      · simp
      · intro c hc
        rcases List.mem_append.mp hc with hc | hc
        · exact fun hmem => hdisj c hc (List.mem_cons_of_mem x hmem)
        · simp at hc
          subst hc
          exact (List.nodup_cons.mp hl).1
  simpa using H l [] (by simp) h (by simp)

theorem JoinInv_mono {expected : List String} {conf conf' : String → Prop}
    (hmono : ∀ c, conf c → conf' c) :
    ∀ st, JoinInv expected conf st → JoinInv expected conf' st := by
  intro st h
  cases st with
  | pending j => exact ⟨h.1, fun c hc => ⟨(h.2 c hc).1, hmono c (h.2 c hc).2⟩⟩
  | resolved l => exact ⟨h.1, h.2.1, fun c hc => ⟨(h.2.2 c hc).1, hmono c (h.2.2 c hc).2⟩⟩
  | rejected e => trivial

theorem joinStep_inv {expected : List String} {conf : String → Prop}
    {st : JoinOutcome} (h : JoinInv expected conf st)
    (ev : Option String × String) :
    JoinInv expected
      (fun c => conf c ∨ (ev.1 = none ∧ channelName ev.2 = c))
      (joinStep expected st ev) := by
  rcases ev with ⟨err, jc⟩
  cases st with
  | resolved l => exact JoinInv_mono (fun c hc => Or.inl hc) _ h
  | rejected e => trivial
  | pending j =>
    obtain ⟨hnd, hmem⟩ := h
    show JoinInv _ _ (joinStep expected (.pending j) (err, jc))
    unfold joinStep
    dsimp only
    by_cases hin : channelName jc ∈ expected
    · rw [if_pos hin]
      cases err with
      | some e => trivial
      | none =>
        have hnd' : (jsSetAdd j (channelName jc)).Nodup := jsSetAdd_nodup hnd
        have hmem' : ∀ c ∈ jsSetAdd j (channelName jc),
            c ∈ expected ∧ (conf c ∨ ((none : Option String) = none ∧ channelName jc = c)) := by
          intro c hc
          rcases mem_jsSetAdd.mp hc with hc | rfl
          · exact ⟨(hmem c hc).1, Or.inl (hmem c hc).2⟩
          · exact ⟨hin, Or.inr ⟨rfl, rfl⟩⟩
        by_cases hlen : (jsSetAdd j (channelName jc)).length = expected.length
        · rw [if_pos hlen]
          exact ⟨hnd', hlen, hmem'⟩
        · rw [if_neg hlen]
          exact ⟨hnd', hmem'⟩
    · rw [if_neg hin]
      exact JoinInv_mono (fun c hc => Or.inl hc) _ ⟨hnd, hmem⟩

theorem runJoin_foldl_inv (expected : List String) :
    ∀ (events : List (Option String × String)) (st : JoinOutcome)
      (conf : String → Prop), JoinInv expected conf st →
      JoinInv expected (fun c => conf c ∨ ConfIn events c)
        (events.foldl (joinStep expected) st) := by
  intro events
  induction events with
  | nil =>
    intro st conf h
    simpa using JoinInv_mono (fun c hc => Or.inl hc) st h
  | cons ev evs ih =>
    intro st conf h
    rw [List.foldl_cons]
    have hstep := joinStep_inv h ev
    have := ih _ _ hstep
    refine JoinInv_mono ?_ _ this
    intro c hc
    rcases hc with (hc | hc) | hc
    · exact Or.inl hc
    · exact Or.inr ⟨ev, List.mem_cons_self _ _, hc.1, hc.2⟩
    · obtain ⟨p, hp, h1, h2⟩ := hc
      exact Or.inr ⟨p, List.mem_cons_of_mem _ hp, h1, h2⟩

theorem foldl_joinStep_rejected (expected : List String) (e : String) :
    ∀ events : List (Option String × String),
      events.foldl (joinStep expected) (.rejected e) = .rejected e := by
  intro events
  induction events with
  | nil => rfl
  | cons ev evs ih => rw [List.foldl_cons]; exact ih

theorem subset_of_nodup_length_eq {l e : List String}
    (hl : l.Nodup) (he : e.Nodup) (hsub : ∀ c ∈ l, c ∈ e)
    (hlen : l.length = e.length) : ∀ c ∈ e, c ∈ l := by
  have hsub' : l.toFinset ⊆ e.toFinset := by
    intro c hc
    exact List.mem_toFinset.mpr (hsub c (List.mem_toFinset.mp hc))
  have hcard : e.toFinset.card ≤ l.toFinset.card := by
    rw [List.toFinset_card_of_nodup hl, List.toFinset_card_of_nodup he]
    omega
  have := Finset.eq_of_subset_of_card_le hsub' hcard
  intro c hc
  exact List.mem_toFinset.mp (this ▸ List.mem_toFinset.mpr hc)

/-- C2 (amended): for a non-empty channel list whose normalized names are
pairwise distinct, one `join` call sends exactly one frame
`JOIN #a,#b,#c`; a resolved future implies a confirmation arrived for
each of the N channels and the result is a length-N sequence of exactly
the normalized channel names; a failure event for any expected channel
while the future is still pending rejects the whole future; and a
single-string input resolves to the length-1 sequence holding its
normalized name. -/
theorem join_multi_spec (chs : List String) (hne : chs ≠ [])
    (hnd : (chs.map channelName).Nodup) :
    joinFrames chs = ["JOIN " ++ String.intercalate "," (chs.map channelName)] ∧
    (joinFrames chs).length = 1 ∧
    (∀ events l, runJoin chs events = .resolved l →
      l.length = chs.length ∧
      (∀ c ∈ chs.map channelName, c ∈ l ∧ ConfIn events c) ∧
      (∀ c ∈ l, c ∈ chs.map channelName)) ∧
    (∀ (e : String) pre post jc, (∃ j, runJoin chs pre = .pending j) →
      channelName jc ∈ chs.map channelName →
      runJoin chs (pre ++ (some e, jc) :: post) = .rejected e) ∧
    (∀ (ch : String) events l, runJoin [ch] events = .resolved l →
      joinResultShape false l = [channelName ch]) := by
  have heq : jsSetOfList (chs.map channelName) = chs.map channelName :=
    jsSetOfList_eq_self hnd
  refine ⟨rfl, rfl, ?_, ?_, ?_⟩
  · intro events l hres
    have hinv := runJoin_foldl_inv (jsSetOfList (chs.map channelName)) events
      (.pending []) (fun _ => False) ⟨List.nodup_nil, by simp⟩
    rw [show events.foldl (joinStep (jsSetOfList (chs.map channelName)))
        (.pending []) = runJoin chs events from rfl, hres] at hinv
    obtain ⟨hlnd, hlen, hmem⟩ := hinv
    rw [heq] at hlen hmem
    have hlen' : l.length = chs.length := by
      rw [hlen, List.length_map]
    have hsub : ∀ c ∈ l, c ∈ chs.map channelName := fun c hc => (hmem c hc).1
    have hsup : ∀ c ∈ chs.map channelName, c ∈ l :=
      subset_of_nodup_length_eq hlnd hnd hsub hlen
    refine ⟨hlen', ?_, hsub⟩
    intro c hc
    refine ⟨hsup c hc, ?_⟩
    rcases (hmem c (hsup c hc)).2 with hf | hconf
    · exact absurd hf not_false
    · exact hconf
  · rintro e pre post jc ⟨j, hpre⟩ hin
    show (pre ++ (some e, jc) :: post).foldl
      (joinStep (jsSetOfList (chs.map channelName))) (.pending []) = .rejected e
    rw [List.foldl_append,
      show pre.foldl (joinStep (jsSetOfList (chs.map channelName)))
        (.pending []) = runJoin chs pre from rfl, hpre, List.foldl_cons]
    have hstep : joinStep (jsSetOfList (chs.map channelName))
        (.pending j) (some e, jc) = .rejected e := by
      have hin' : channelName jc ∈ jsSetOfList (chs.map channelName) := by
        rw [heq]; exact hin
      unfold joinStep
      dsimp only
      rw [if_pos hin']
    rw [hstep]
    exact foldl_joinStep_rejected _ _ post
  · intro ch events l hres
    have heq1 : jsSetOfList ([ch].map channelName) = [channelName ch] :=
      jsSetOfList_eq_self (List.nodup_singleton _)
    have hinv := runJoin_foldl_inv (jsSetOfList ([ch].map channelName)) events
      (.pending []) (fun _ => False) ⟨List.nodup_nil, by simp⟩
    rw [show events.foldl (joinStep (jsSetOfList ([ch].map channelName)))
        (.pending []) = runJoin [ch] events from rfl, hres] at hinv
    obtain ⟨_, hlen, hmem⟩ := hinv
    rw [heq1] at hlen hmem
    simp only [List.length_singleton] at hlen
    match l, hlen with
    | [c], _ =>
      have := (hmem c (List.mem_singleton_self c)).1
      rw [List.mem_singleton] at this
      subst this
      rfl

/-- Witness for `join_multi_spec` on `join(["a","b","c"])` with a
confirmation for each channel. -/
theorem join_multi_spec_witness :
    (["a", "b", "c"] : List String) ≠ [] ∧
    ((["a", "b", "c"] : List String).map channelName).Nodup ∧
    (["#a", "#b", "#c"] : List String).length =
      (["a", "b", "c"] : List String).length :=
  ⟨by decide, by decide,
    ((join_multi_spec ["a", "b", "c"] (by decide) (by decide)).2.2.1
      [(none, "#a"), (none, "#b"), (none, "#c")] ["#a", "#b", "#c"]
      (by decide)).1⟩

/-- C2 counterexample: for the length-2 input `["a","a"]` the expected
`Set` collapses the duplicate, a single confirmation resolves the future,
and the result has length 1, not N = 2. -/
theorem join_duplicate_channels_collapse :
    runJoin ["a", "a"] [(none, "a")] = .resolved ["#a"] ∧
    (["a", "a"] : List String).length = 2 ∧
    ¬ ((["#a"] : List String).length = 2) := by decide

theorem skipSpacesAux_ge (data : List Char) :
    ∀ (fuel pos : Nat), pos ≤ skipSpacesAux data fuel pos := by
  intro fuel
  induction fuel with
  | zero => intro pos; exact Nat.le_refl pos
  | succ fuel ih =>
    intro pos
    unfold skipSpacesAux
    split
    case isTrue h => exact Nat.le_trans (Nat.le_succ pos) (ih (pos + 1))
    case isFalse => exact Nat.le_refl pos

theorem skipSpaces_ge (data : List Char) (pos : Nat) :
    pos ≤ skipSpaces data pos :=
  skipSpacesAux_ge data _ pos

theorem skipSpacesAux_congr (data : List Char) :
    ∀ (k f1 f2 pos : Nat), k = data.length + 1 - pos →
      k ≤ f1 → k ≤ f2 →
      skipSpacesAux data f1 pos = skipSpacesAux data f2 pos := by
  intro k
  induction k with
  | zero =>
    intro f1 f2 pos hk _ _
    have hpos : data.length < pos := by omega
    have hget : data.get? pos = none := List.get?_eq_none.mpr (by omega)
    have hget2 : ¬ (data.get? pos = some ' ') := by rw [hget]; exact Option.noConfusion
    match f1, f2 with
    | 0, 0 => rfl
    | 0, f2 + 1 =>
      unfold skipSpacesAux
      rw [if_neg hget2]
    | f1 + 1, 0 =>
      unfold skipSpacesAux
      rw [if_neg hget2]
    | f1 + 1, f2 + 1 =>
      unfold skipSpacesAux
      rw [if_neg hget2, if_neg hget2]
  | succ k ih =>
    intro f1 f2 pos hk h1 h2
    cases f1 with
    | zero => exact absurd h1 (by omega)
    | succ f1 =>
      cases f2 with
      | zero => exact absurd h2 (by omega)
      | succ f2 =>
        unfold skipSpacesAux
        by_cases h : data.get? pos = some ' '
        · rw [if_pos h, if_pos h]
          exact ih f1 f2 (pos + 1) (by omega) (by omega) (by omega)
        · rw [if_neg h, if_neg h]

/-- `skipSpaces` satisfies the source loop's defining equation. -/
theorem skipSpaces_eq (data : List Char) (pos : Nat) :
    skipSpaces data pos =
      if data.get? pos = some ' ' then skipSpaces data (pos + 1) else pos := by
  unfold skipSpaces
  by_cases h : data.get? pos = some ' '
  · rw [if_pos h]
    obtain ⟨hlt, -⟩ := List.get?_eq_some.mp h
    cases hf : data.length + 1 - pos with
    | zero => omega
    | succ k =>
      rw [show skipSpacesAux data (k + 1) pos =
          if data.get? pos = some ' ' then skipSpacesAux data k (pos + 1) else pos
          from rfl, if_pos h]
      exact skipSpacesAux_congr data (data.length + 1 - (pos + 1)) k
        (data.length + 1 - (pos + 1)) (pos + 1) rfl (by omega) (by omega)
  · rw [if_neg h]
    cases hf : data.length + 1 - pos with
    | zero => rfl
    | succ k =>
      rw [show skipSpacesAux data (k + 1) pos =
          if data.get? pos = some ' ' then skipSpacesAux data k (pos + 1) else pos
          from rfl, if_neg h]

theorem indexOfSpaceFrom_ge : ∀ {l : List Char} {s i : Nat},
    indexOfSpaceFrom l s = some i → s ≤ i := by
  intro l
  induction l with
  | nil => intro s i h; cases h
  | cons c rest ih =>
    intro s i h
    cases s with
    | zero => omega
    | succ s =>
      simp only [indexOfSpaceFrom] at h
      obtain ⟨j, hj, rfl⟩ := Option.map_eq_some'.mp h
      have := ih hj
      omega

theorem paramsLoopAux_succ (data : List Char) (f pos : Nat) :
    paramsLoopAux data (f + 1) pos =
      if pos < data.length then
        if data.get? pos = some ':' then [data.drop (pos + 1)]
        else
          match indexOfSpaceFrom data pos with
          | some ns =>
            listSlice data pos ns :: paramsLoopAux data f (skipSpaces data (ns + 1))
          | none => [data.drop pos]
      else [] := rfl

theorem paramsLoopAux_congr (data : List Char) :
    ∀ (k f1 f2 pos : Nat), k = data.length + 1 - pos → k ≤ f1 → k ≤ f2 →
      paramsLoopAux data f1 pos = paramsLoopAux data f2 pos := by
  intro k
  induction k using Nat.strong_induction_on with
  | _ k ih =>
    intro f1 f2 pos hk h1 h2
    cases f1 with
    | zero =>
      cases f2 with
      | zero => rfl
      | succ f2 =>
        have hpos : ¬ pos < data.length := by omega
        rw [paramsLoopAux_succ, if_neg hpos]
        rfl
    | succ f1 =>
      cases f2 with
      | zero =>
        have hpos : ¬ pos < data.length := by omega
        rw [paramsLoopAux_succ, if_neg hpos]
        rfl
      | succ f2 =>
        rw [paramsLoopAux_succ, paramsLoopAux_succ]
        by_cases hpos : pos < data.length
        · rw [if_pos hpos, if_pos hpos]
          by_cases hc : data.get? pos = some ':'
          · rw [if_pos hc, if_pos hc]
          · rw [if_neg hc, if_neg hc]
            cases hn : indexOfSpaceFrom data pos with
            | some ns =>
              show listSlice data pos ns ::
                  paramsLoopAux data f1 (skipSpaces data (ns + 1)) =
                listSlice data pos ns ::
                  paramsLoopAux data f2 (skipSpaces data (ns + 1))
              have hge := indexOfSpaceFrom_ge hn
              have hsk := skipSpaces_ge data (ns + 1)
              exact congrArg _
                (ih (data.length + 1 - skipSpaces data (ns + 1)) (by omega)
                  f1 f2 _ rfl (by omega) (by omega))
            | none => rfl
        · rw [if_neg hpos, if_neg hpos]

/-- `paramsLoop` satisfies the source loop's defining equation. -/
theorem paramsLoop_eq (data : List Char) (pos : Nat) :
    paramsLoop data pos =
      if pos < data.length then
        if data.get? pos = some ':' then [data.drop (pos + 1)]
        else
          match indexOfSpaceFrom data pos with
          | some ns =>
            listSlice data pos ns :: paramsLoop data (skipSpaces data (ns + 1))
          | none => [data.drop pos]
      else [] := by
  unfold paramsLoop
  by_cases hpos : pos < data.length
  · cases hf : data.length + 1 - pos with
    | zero => omega
    | succ k =>
      rw [paramsLoopAux_succ, if_pos hpos, if_pos hpos]
      by_cases hc : data.get? pos = some ':'
      · rw [if_pos hc, if_pos hc]
      · rw [if_neg hc, if_neg hc]
        cases hn : indexOfSpaceFrom data pos with
        | some ns =>
          show listSlice data pos ns ::
              paramsLoopAux data k (skipSpaces data (ns + 1)) =
            listSlice data pos ns ::
              paramsLoopAux data (data.length + 1 - skipSpaces data (ns + 1))
                (skipSpaces data (ns + 1))
          have hge := indexOfSpaceFrom_ge hn
          have hsk := skipSpaces_ge data (ns + 1)
          exact congrArg _
            (paramsLoopAux_congr data
              (data.length + 1 - skipSpaces data (ns + 1)) k _ _ rfl
              (by omega) (by omega))
        | none => rfl
  · cases hf : data.length + 1 - pos with
    | zero =>
      rw [if_neg hpos]
      rfl
    | succ k =>
      rw [paramsLoopAux_succ, if_neg hpos, if_neg hpos]

theorem indexOfSpaceFrom_isSpace : ∀ {l : List Char} {s i : Nat},
    indexOfSpaceFrom l s = some i → l.get? i = some ' ' := by
  intro l
  induction l with
  | nil => intro s i h; cases h
  | cons c rest ih =>
    intro s i h
    cases s with
    | zero =>
      simp only [indexOfSpaceFrom] at h
      by_cases hc : c = ' '
      · rw [if_pos hc] at h
        cases h
        simp [hc]
      · rw [if_neg hc] at h
        obtain ⟨j, hj, rfl⟩ := Option.map_eq_some'.mp h
        simpa using ih hj
    | succ s =>
      simp only [indexOfSpaceFrom] at h
      obtain ⟨j, hj, rfl⟩ := Option.map_eq_some'.mp h
      simpa using ih hj

theorem indexOfSpaceFrom_none_iff : ∀ {l : List Char} {s : Nat},
    indexOfSpaceFrom l s = none ↔ ∀ j, s ≤ j → l.get? j ≠ some ' ' := by
  intro l
  induction l with
  | nil => intro s; simp [indexOfSpaceFrom]
  | cons c rest ih =>
    intro s
    cases s with
    | zero =>
      simp only [indexOfSpaceFrom]
      by_cases hc : c = ' '
      · rw [if_pos hc]
        constructor
        · intro h; cases h
        · intro h
          exact absurd (show (c :: rest).get? 0 = some ' ' by simp [hc])
            (h 0 (Nat.zero_le 0))
      · rw [if_neg hc]
        rw [Option.map_eq_none', ih]
        constructor
        · intro h j _
          cases j with
          | zero => simpa using hc
          | succ j => simpa using h j (Nat.zero_le j)
        · intro h j _
          simpa using h (j + 1) (Nat.zero_le _)
    | succ s =>
      simp only [indexOfSpaceFrom]
      rw [Option.map_eq_none', ih]
      constructor
      · intro h j hj
        match j, hj with
        | j + 1, hj => simpa using h j (by omega)
      · intro h j hj
        simpa using h (j + 1) (by omega)

theorem tagsStep_eq_none_iff (data : List Char) :
    tagsStep data = none ↔
      (data.get? 0 = some '@' ∧ indexOfSpaceFrom data 0 = none) := by
  unfold tagsStep
  by_cases h0 : data.get? 0 = some '@'
  · rw [if_pos h0]
    cases hn : indexOfSpaceFrom data 0 with
    | none =>
      show (none : Option (List (String × TagValue) × Nat)) = none ↔ _
      exact ⟨fun _ => ⟨h0, rfl⟩, fun _ => rfl⟩
    | some ns =>
      show some (parseTags (listSlice data 1 ns), ns + 1) = none ↔ _
      constructor
      · intro h; exact Option.noConfusion h
      · rintro ⟨-, h2⟩
        exact Option.noConfusion h2
  · rw [if_neg h0]
    constructor
    · intro h; exact Option.noConfusion h
    · rintro ⟨h1, -⟩
      exact absurd h1 h0

theorem prefixStep_eq_none_iff (data : List Char) (pos : Nat) :
    prefixStep data pos = none ↔
      (data.get? pos = some ':' ∧ indexOfSpaceFrom data pos = none) := by
  unfold prefixStep
  by_cases h0 : data.get? pos = some ':'
  · rw [if_pos h0]
    cases hn : indexOfSpaceFrom data pos with
    | none =>
      show (none : Option (Option (List Char) × Nat)) = none ↔ _
      exact ⟨fun _ => ⟨h0, rfl⟩, fun _ => rfl⟩
    | some ns =>
      show some (some (listSlice data (pos + 1) ns), skipSpaces data (ns + 1)) =
          none ↔ _
      constructor
      · intro h; exact Option.noConfusion h
      · rintro ⟨-, h2⟩
        exact Option.noConfusion h2
  · rw [if_neg h0]
    constructor
    · intro h; exact Option.noConfusion h
    · rintro ⟨h1, -⟩
      exact absurd h1 h0

theorem commandStep_eq_none_iff (data : List Char) (p : Nat) :
    commandStep data p = none ↔ data.length ≤ p := by
  unfold commandStep
  cases hn : indexOfSpaceFrom data p with
  | none =>
    show (if p < data.length then some (data.drop p, []) else none) = none ↔
      data.length ≤ p
    by_cases hp : p < data.length
    · rw [if_pos hp]
      constructor
      · intro h; exact Option.noConfusion h
      · intro h; omega
    · rw [if_neg hp]
      constructor
      · intro _; omega
      · intro _; rfl
  | some ns =>
    show some (listSlice data p ns, paramsLoop data (skipSpaces data (ns + 1))) =
        none ↔ data.length ≤ p
    constructor
    · intro h; exact Option.noConfusion h
    · intro h
      have h1 : p ≤ ns := indexOfSpaceFrom_ge hn
      obtain ⟨h2, -⟩ := List.get?_eq_some.mp (indexOfSpaceFrom_isSpace hn)
      omega

/-- C6: the parser returns the "no message" sentinel exactly when the
line starts with `@` and contains no space at all, or its `:`-prefix
position has no space at or after it, or no text remains at the command
position; on every other input the parsed message's command field is
non-null. -/
theorem parser_msg_none_iff (data : List Char) :
    (msg data = none ↔
      (data.get? 0 = some '@' ∧ ∀ j, data.get? j ≠ some ' ') ∨
      (∃ tags p1, tagsStep data = some (tags, p1) ∧
        data.get? (skipSpaces data p1) = some ':' ∧
        ∀ j, skipSpaces data p1 ≤ j → data.get? j ≠ some ' ') ∨
      (∃ tags p1 prfx p3, tagsStep data = some (tags, p1) ∧
        prefixStep data (skipSpaces data p1) = some (prfx, p3) ∧
        data.length ≤ p3)) ∧
    (∀ m, msg data = some m → m.command.isSome = true) := by
  constructor
  · constructor
    · intro hnone
      unfold msg at hnone
      cases ht : tagsStep data with
      | none =>
        left
        obtain ⟨h0, hns⟩ := (tagsStep_eq_none_iff data).mp ht
        exact ⟨h0, fun j => indexOfSpaceFrom_none_iff.mp hns j (Nat.zero_le j)⟩
      | some tp =>
        rcases tp with ⟨tags, p1⟩
        simp only [ht] at hnone
        cases hp : prefixStep data (skipSpaces data p1) with
        | none =>
          right; left
          obtain ⟨hc, hns⟩ := (prefixStep_eq_none_iff data _).mp hp
          exact ⟨tags, p1, rfl, hc, indexOfSpaceFrom_none_iff.mp hns⟩
        | some pp =>
          rcases pp with ⟨prfx, p3⟩
          simp only [hp] at hnone
          cases hcmd : commandStep data p3 with
          | none =>
            right; right
            exact ⟨tags, p1, prfx, p3, rfl, hp,
              (commandStep_eq_none_iff data p3).mp hcmd⟩
          | some cp =>
            simp only [hcmd] at hnone
            exact Option.noConfusion hnone
    · intro h
      unfold msg
      rcases h with ⟨h0, hns⟩ | ⟨tags, p1, ht, hc, hns⟩ |
        ⟨tags, p1, prfx, p3, ht, hp, hlen⟩
      · simp only [(tagsStep_eq_none_iff data).mpr
          ⟨h0, indexOfSpaceFrom_none_iff.mpr (fun j _ => hns j)⟩]
      · simp only [ht, (prefixStep_eq_none_iff data _).mpr
          ⟨hc, indexOfSpaceFrom_none_iff.mpr hns⟩]
      · simp only [ht, hp, (commandStep_eq_none_iff data p3).mpr hlen]
  · intro m hm
    unfold msg at hm
    cases ht : tagsStep data with
    | none =>
      simp only [ht] at hm
      exact Option.noConfusion hm
    | some tp =>
      rcases tp with ⟨tags, p1⟩
      simp only [ht] at hm
      cases hp : prefixStep data (skipSpaces data p1) with
      | none =>
        simp only [hp] at hm
        exact Option.noConfusion hm
      | some pp =>
        rcases pp with ⟨prfx, p3⟩
        simp only [hp] at hm
        cases hcmd : commandStep data p3 with
        | none =>
          simp only [hcmd] at hm
          exact Option.noConfusion hm
        | some cp =>
          rcases cp with ⟨cmd, params⟩
          simp only [hcmd] at hm
          rw [← Option.some.inj hm]
          rfl

/-- C1: the claimed round-trip `unescapeIRC (escapeIRC s) = s` fails on the
one-character string `"\n"`: the decode table `ircEscapedChars` maps the
escape letter `n` to the empty string instead of a line feed, so the
escaped form `"\\n"` decodes to the empty string. -/
theorem unescapeIRC_escapeIRC_lf_lost :
    escapeIRC ['\n'] = ['\\', 'n'] ∧
    unescapeIRC (escapeIRC ['\n']) = [] ∧ ([] : List Char) ≠ ['\n'] := by
  decide

/-- C4: the claim that `escapeIRC` encodes a literal backslash as two
backslashes fails: `ircUnescapedChars` has no backslash entry, so the
replacement callback returns the captured backslash unchanged even though
`escapeIRCRegex` matches it. -/
theorem escapeIRC_backslash_unchanged :
    escapeIRC ['\\'] = ['\\'] ∧ ['\\'] ≠ (['\\', '\\'] : List Char) := by
  decide

end Tmi

